import Mathlib

/-!
Shallow embedding of the `iffc` crate (src/src/lib.rs), an IFF chunk codec.

Bytes are modelled as natural numbers.  The decoder's reader is modelled as
the list of bytes not yet consumed, with the semantics of the in-memory
cursor the crate's own examples wrap: a `read` or `read_vectored` call fills
the supplied buffers with as many bytes as remain (up to the buffers' total
capacity) and returns `Ok(count)`.  The encoder's writer is modelled as the
list of bytes written so far; a cursor over a growable buffer writes every
supplied slice in full and returns `Ok(count)`.

Two places in `lib.rs` matter for faithfulness:
  - In `Decoder::next` (lines 66-69) the `Ok` count returned by
    `read_vectored` is discarded by `.ok()?`, so a short header read is not
    detected: the two 4-byte buffers keep their zero initialisation in the
    positions that were not filled.
  - In `Encoder::shl` (line 87) the receiver is written `sel.0`; the method's
    only binding is `self`, which line 94 (`Some(Self(self.0))`) uses, so
    `sel` is read as `self` here.  `chunk.1.len() as u32` (line 89) reduces
    the payload length modulo 2^32.
-/

/-- `u32::from_le_bytes` on a 4-byte buffer (little-endian). -/
def u32_from_le_bytes : List Nat → Nat
  | [b0, b1, b2, b3] => b0 + 256 * b1 + 65536 * b2 + 16777216 * b3
  | _ => 0

/-- `u32::to_le_bytes`: the four little-endian bytes of a 32-bit value. -/
def u32_to_le_bytes (n : Nat) : List Nat :=
  [n % 256, n / 256 % 256, n / 65536 % 256, n / 16777216 % 256]

/-- The `Chunk` struct of lib.rs: field `0` is the four-byte identity,
field `1` the byte data encapsulated inside it. -/
structure Chunk where
  id : List Nat
  data : List Nat
deriving DecidableEq

/-- `Iterator::next` for `Decoder` (lib.rs lines 62-80) over a cursor whose
remaining bytes are `src`.  `read_vectored` fills the two zero-initialised
4-byte buffers (`id`, `size`) with `min 8 src.length` bytes and its `Ok`
count is discarded by `.ok()?`; the header is therefore the first 8 bytes of
`src` padded with zeros.  The payload read into the zeroed `vec![0u8; size]`
returns count `s = min size remaining`, and the code returns `None` exactly
when `size ≠ s`.  On `some`, the second component is the reader state left
for the next call. -/
def Decoder.next (src : List Nat) : Option (Chunk × List Nat) :=
  let header := src.take 8 ++ List.replicate (8 - src.length) 0
  let id := header.take 4
  let sizeBytes := header.drop 4
  let rest := src.drop 8
  let size := u32_from_le_bytes sizeBytes
  let s := min size rest.length
  let data := rest.take size ++ List.replicate (size - rest.length) 0
  if size ≠ s then none
  else some (⟨id, data⟩, rest.drop size)

/-- Pulling chunks from the decoder the way an iterator consumer does:
repeatedly call `Decoder.next`, stopping at the first `none`.  `fuel` bounds
the number of pulls, since nothing else guarantees termination. -/
def decodeAll : Nat → List Nat → List Chunk
  | 0, _ => []
  | fuel + 1, src =>
    match Decoder.next src with
    | none => []
    | some (c, src') => c :: decodeAll fuel src'

/-- `Shl::shl` for `Encoder` (lib.rs lines 86-95) over a cursor whose bytes
written so far are `sink`.  `write_vectored` appends the three slices in
order: the 4 identity bytes, the little-endian bytes of the payload length
cast to `u32` (reduction modulo 2^32), and the payload.  The `Option` mirrors
the `Option<Self>` return; for the in-memory cursor the write succeeds. -/
def Encoder.shl (sink : List Nat) (c : Chunk) : Option (List Nat) :=
  some (sink ++ c.id ++ u32_to_le_bytes (c.data.length % 2 ^ 32) ++ c.data)

/-- The wire frame `Encoder.shl` appends for one chunk. -/
def wire (c : Chunk) : List Nat :=
  c.id ++ u32_to_le_bytes (c.data.length % 2 ^ 32) ++ c.data

/-- A chunk whose payload length, 2^32, is not representable as a u32: tag
DATA and 2^32 zero bytes of payload. -/
def bigChunk : Chunk := ⟨[68, 65, 84, 65], List.replicate (2 ^ 32) 0⟩

/- ------------------------------------------------------------------ -/
/- Helper lemmas shared by the claim theorems.                         -/
/- ------------------------------------------------------------------ -/

theorem shl_eq_wire (sink : List Nat) (c : Chunk) :
    Encoder.shl sink c = some (sink ++ wire c) := by
  simp [Encoder.shl, wire]

theorem u32_le_roundtrip (n : Nat) (h : n < 2 ^ 32) :
    u32_from_le_bytes (u32_to_le_bytes n) = n := by
  simp only [u32_to_le_bytes, u32_from_le_bytes]
  omega

theorem u32_to_le_bytes_length (n : Nat) : (u32_to_le_bytes n).length = 4 := rfl

/-- Decoding a well-formed frame: a 4-byte tag, 4 length bytes, and at least
as many further bytes as the length field declares, yields the chunk carrying
that tag and exactly the declared number of payload bytes; the bytes beyond
are the state left for the next pull. -/
theorem decode_frame (tag lenB rest : List Nat) (h4 : tag.length = 4)
    (hl : lenB.length = 4) (he : u32_from_le_bytes lenB ≤ rest.length) :
    Decoder.next (tag ++ lenB ++ rest) =
      some (⟨tag, rest.take (u32_from_le_bytes lenB)⟩,
            rest.drop (u32_from_le_bytes lenB)) := by
  have hlen8 : (tag ++ lenB).length = 8 := by simp [h4, hl]
  have hsrclen : ((tag ++ lenB) ++ rest).length = 8 + rest.length := by
    simp only [List.length_append, h4, hl]
  have htake8 : ((tag ++ lenB) ++ rest).take 8 = tag ++ lenB :=
    List.take_left' hlen8
  have hdrop8 : ((tag ++ lenB) ++ rest).drop 8 = rest :=
    List.drop_left' hlen8
  have hid : (tag ++ lenB).take 4 = tag := List.take_left' h4
  have hsz : (tag ++ lenB).drop 4 = lenB := List.drop_left' h4
  simp only [Decoder.next, hsrclen, htake8, hdrop8]
  rw [Nat.sub_eq_zero_of_le (by omega), List.replicate_zero, List.append_nil,
    hid, hsz]
  rw [Nat.min_eq_left he, Nat.sub_eq_zero_of_le he, List.replicate_zero,
    List.append_nil]
  simp

/-- Decoding the wire frame of a chunk with a 4-byte tag and a payload whose
length fits in 32 bits recovers the chunk; trailing bytes are untouched. -/
theorem decode_wire (c : Chunk) (rest : List Nat) (ht : c.id.length = 4)
    (hp : c.data.length < 2 ^ 32) :
    Decoder.next (wire c ++ rest) = some (c, rest) := by
  have hmod : c.data.length % 2 ^ 32 = c.data.length := Nat.mod_eq_of_lt hp
  have hfle : u32_from_le_bytes (u32_to_le_bytes (c.data.length % 2 ^ 32))
      = c.data.length := by rw [hmod]; exact u32_le_roundtrip _ hp
  have harr : wire c ++ rest
      = c.id ++ u32_to_le_bytes (c.data.length % 2 ^ 32) ++ (c.data ++ rest) := by
    simp [wire]
  rw [harr, decode_frame _ _ _ ht (u32_to_le_bytes_length _)
    (by rw [hfle]; simp), hfle]
  rw [List.take_left, List.drop_left]

/- ------------------------------------------------------------------ -/
/- Claim theorems.                                                     -/
/- ------------------------------------------------------------------ -/

/-- C1: Encoding a chunk with any 4-byte tag and any payload of length at
most 2^20 and then decoding the produced bytes from the start yields a chunk
equal to the original (same tag bytes, same payload bytes). -/
theorem C1_encode_decode_roundtrip (c : Chunk) (ht : c.id.length = 4)
    (hp : c.data.length ≤ 2 ^ 20) :
    ∃ bytes, Encoder.shl [] c = some bytes ∧
      Decoder.next bytes = some (c, []) := by
  refine ⟨wire c, by simpa using shl_eq_wire [] c, ?_⟩
  have h := decode_wire c [] ht (lt_of_le_of_lt hp (by norm_num))
  simpa using h

/-- Witness for C1 at the doctest chunk: tag RIFF, payload WAVE. -/
theorem C1_encode_decode_roundtrip_witness :
    ∃ bytes, Encoder.shl [] ⟨[82, 73, 70, 70], [87, 65, 86, 69]⟩ = some bytes ∧
      Decoder.next bytes = some (⟨[82, 73, 70, 70], [87, 65, 86, 69]⟩, []) :=
  C1_encode_decode_roundtrip ⟨[82, 73, 70, 70], [87, 65, 86, 69]⟩
    (by decide) (by decide)

/-- C2: evaluation of the code at the failing input.  On a 3-byte source the
decoder does not produce zero chunks: the short header read's byte count is
discarded, so the first pull yields a chunk whose tag is the 3 source bytes
padded with one zero and whose payload is empty. -/
theorem C2_three_byte_source_yields_chunk :
    Decoder.next [65, 66, 67] = some (⟨[65, 66, 67, 0], []⟩, []) := by decide

/-- C3: evaluation of the code at the failing input.  On an exhausted source
(zero bytes remaining) every pull still succeeds with the all-zero chunk,
because the Ok(0) count of the header read is discarded, so a consumer with
fuel f collects f chunks: the sequence is not bounded by the source length
and never ends. -/
theorem C3_exhausted_source_never_stops (fuel : Nat) :
    decodeAll fuel [] = List.replicate fuel ⟨[0, 0, 0, 0], []⟩ := by
  have hnext : Decoder.next [] = some (⟨[0, 0, 0, 0], []⟩, []) := by decide
  induction fuel with
  | zero => rfl
  | succ f ih => simp [decodeAll, hnext, ih, List.replicate_succ]

/-- C4: A frame whose 8-byte header is a 4-byte tag followed by the length
field 0x00000000 decodes to a chunk with that tag and an empty payload, and
the sequence is not terminated: the remaining bytes are left as the decoder
state for the next pull. -/
theorem C4_zero_length_frame (tag rest : List Nat) (ht : tag.length = 4) :
    Decoder.next (tag ++ [0, 0, 0, 0] ++ rest) = some (⟨tag, []⟩, rest) := by
  have h := decode_frame tag [0, 0, 0, 0] rest ht (by decide)
    (by simp [u32_from_le_bytes])
  simpa [u32_from_le_bytes] using h

/-- Witness for C4: tag TEST, length 0, one trailing byte left unread. -/
theorem C4_zero_length_frame_witness :
    Decoder.next ([84, 69, 83, 84] ++ [0, 0, 0, 0] ++ [9]) =
      some (⟨[84, 69, 83, 84], []⟩, [9]) :=
  C4_zero_length_frame [84, 69, 83, 84] [9] (by decide)

/-- C5: A source consisting of a full 8-byte header that declares a nonzero
payload length, followed by fewer payload bytes than declared, yields no
chunk: the pull returns none, so the consuming loop produces the empty
sequence and no byte is ever parsed into a chunk. -/
theorem C5_truncated_payload (tag lenB rest : List Nat) (ht : tag.length = 4)
    (hl : lenB.length = 4) (hnz : 0 < u32_from_le_bytes lenB)
    (hshort : rest.length < u32_from_le_bytes lenB) :
    Decoder.next (tag ++ lenB ++ rest) = none ∧
      ∀ fuel, decodeAll fuel (tag ++ lenB ++ rest) = [] := by
  have hlen8 : (tag ++ lenB).length = 8 := by simp [ht, hl]
  have hsrclen : ((tag ++ lenB) ++ rest).length = 8 + rest.length := by
    simp only [List.length_append, ht, hl]
  have htake8 : ((tag ++ lenB) ++ rest).take 8 = tag ++ lenB :=
    List.take_left' hlen8
  have hdrop8 : ((tag ++ lenB) ++ rest).drop 8 = rest :=
    List.drop_left' hlen8
  have hsz : (tag ++ lenB).drop 4 = lenB := List.drop_left' ht
  have hnext : Decoder.next (tag ++ lenB ++ rest) = none := by
    simp only [Decoder.next, hsrclen, htake8, hdrop8]
    rw [Nat.sub_eq_zero_of_le (by omega), List.replicate_zero,
      List.append_nil, hsz]
    rw [Nat.min_eq_right (le_of_lt hshort)]
    rw [if_pos (show u32_from_le_bytes lenB ≠ rest.length by omega)]
  refine ⟨hnext, fun fuel => ?_⟩
  cases fuel with
  | zero => rfl
  | succ f => simp only [decodeAll, hnext]

/-- Witness for C5: tag DATA, declared length 10, only 5 payload bytes. -/
theorem C5_truncated_payload_witness :
    Decoder.next ([68, 65, 84, 65] ++ [10, 0, 0, 0] ++ [1, 2, 3, 4, 5]) =
      none :=
  (C5_truncated_payload [68, 65, 84, 65] [10, 0, 0, 0] [1, 2, 3, 4, 5]
    (by decide) (by decide) (by decide) (by decide)).1

/-- C6 counterexample: a chunk whose payload length is 2^32 (not
representable as u32) is not rejected by the encoder: the append succeeds,
and the bytes written carry the wrapped length field 0x00000000 followed by
the whole payload. -/
theorem C6_counterexample_oversized_accepted :
    Encoder.shl [] ⟨[65, 65, 65, 65], List.replicate (2 ^ 32) 0⟩ ≠ none ∧
      Encoder.shl [] ⟨[65, 65, 65, 65], List.replicate (2 ^ 32) 0⟩ =
        some ([65, 65, 65, 65] ++ [0, 0, 0, 0] ++ List.replicate (2 ^ 32) 0) := by
  constructor
  · exact fun h => Option.noConfusion h
  · simp only [Encoder.shl, List.length_replicate, Nat.mod_self,
      List.nil_append]
    rfl

/-- C6 amended: the encoder does not reject a chunk whose payload length
exceeds 2^32 - 1.  The append succeeds, writing the tag, then the payload
length reduced modulo 2^32 as the little-endian length field — a wrapped
value that differs from the actual payload length — then the payload. -/
theorem C6_oversized_wraps (sink : List Nat) (c : Chunk)
    (h : 2 ^ 32 ≤ c.data.length) :
    Encoder.shl sink c =
      some (sink ++ c.id ++ u32_to_le_bytes (c.data.length % 2 ^ 32) ++ c.data) ∧
      u32_from_le_bytes (u32_to_le_bytes (c.data.length % 2 ^ 32)) ≠
        c.data.length := by
  refine ⟨rfl, ?_⟩
  rw [u32_le_roundtrip _ (Nat.mod_lt _ (by norm_num))]
  omega

/-- Witness for C6's amended statement at `bigChunk`, whose payload is 2^32
zero bytes. -/
theorem C6_oversized_wraps_witness :
    Encoder.shl [] bigChunk =
      some ([] ++ bigChunk.id ++
        u32_to_le_bytes (bigChunk.data.length % 2 ^ 32) ++ bigChunk.data) ∧
      u32_from_le_bytes (u32_to_le_bytes (bigChunk.data.length % 2 ^ 32)) ≠
        bigChunk.data.length :=
  C6_oversized_wraps [] bigChunk
    (by show 2 ^ 32 ≤ bigChunk.data.length
        simp only [bigChunk]
        exact le_of_eq (List.length_replicate ..).symm)

/-- C7: For a chunk whose payload length is representable in 32 bits, a
successful append writes to the sink exactly, in order, the 4 tag bytes,
the payload length as a little-endian u32, and the payload bytes; and the
decoder reads the 4 bytes after the tag as a little-endian u32, taking
exactly that many payload bytes. -/
theorem C7_wire_format (sink : List Nat) (c : Chunk)
    (hp : c.data.length < 2 ^ 32) (tag lenB rest : List Nat)
    (ht : tag.length = 4) (hl : lenB.length = 4)
    (he : u32_from_le_bytes lenB ≤ rest.length) :
    Encoder.shl sink c =
      some (sink ++ c.id ++ u32_to_le_bytes c.data.length ++ c.data) ∧
      Decoder.next (tag ++ lenB ++ rest) =
        some (⟨tag, rest.take (u32_from_le_bytes lenB)⟩,
              rest.drop (u32_from_le_bytes lenB)) := by
  constructor
  · simp only [Encoder.shl, Nat.mod_eq_of_lt hp]
  · exact decode_frame tag lenB rest ht hl he

/-- Witness for C7: encode (RIFF, [9]) onto a sink holding one byte; decode
the frame WAVE, length 2, payload [5,6] with trailing byte 7. -/
theorem C7_wire_format_witness :
    Encoder.shl [1] ⟨[82, 73, 70, 70], [9]⟩ =
      some ([1] ++ [82, 73, 70, 70] ++ u32_to_le_bytes 1 ++ [9]) ∧
      Decoder.next ([87, 65, 86, 69] ++ [2, 0, 0, 0] ++ [5, 6, 7]) =
        some (⟨[87, 65, 86, 69], [5, 6]⟩, [7]) := by
  have h := C7_wire_format [1] ⟨[82, 73, 70, 70], [9]⟩ (by decide)
    [87, 65, 86, 69] [2, 0, 0, 0] [5, 6, 7] (by decide) (by decide) (by decide)
  refine ⟨h.1, ?_⟩
  rw [h.2]
  decide

/-- C8: Appending three chunks in sequence to one encoder, each successful
append chaining into the next, produces the byte stream equal to the
concatenation of the three individual wire encodings, in append order. -/
theorem C8_chained_encode (c1 c2 c3 : Chunk) :
    (Encoder.shl [] c1).bind (fun s1 => (Encoder.shl s1 c2).bind
      (fun s2 => Encoder.shl s2 c3)) =
      some (wire c1 ++ wire c2 ++ wire c3) := by
  simp [Encoder.shl, wire, List.append_assoc]

/-- C9: Decoding is deterministic in the input bytes: two independent passes
of the decoder over the same immutable buffer (modelled as two buffers that
hold equal bytes) produce identical chunk sequences, for any fuel. -/
theorem C9_decode_deterministic (buf1 buf2 : List Nat) (fuel : Nat)
    (h : buf1 = buf2) : decodeAll fuel buf1 = decodeAll fuel buf2 := by
  rw [h]

/-- Witness for C9 on the doctest bytes. -/
theorem C9_decode_deterministic_witness :
    decodeAll 1 [82, 73, 70, 70, 4, 0, 0, 0, 87, 65, 86, 69] =
      decodeAll 1 [82, 73, 70, 70, 4, 0, 0, 0, 87, 65, 86, 69] :=
  C9_decode_deterministic _ _ 1 rfl

/-- C10: Whenever the decoder yields a chunk, the payload length equals the
little-endian u32 value of positions 4 through 7 of the header it read (the
first 8 source bytes, zero-padded when fewer were available). -/
theorem C10_payload_length_matches_header (src : List Nat) (c : Chunk)
    (rest : List Nat) (h : Decoder.next src = some (c, rest)) :
    c.data.length =
      u32_from_le_bytes
        ((src.take 8 ++ List.replicate (8 - src.length) 0).drop 4) := by
  simp only [Decoder.next] at h
  split at h
  · exact absurd h (by simp)
  · next hcond =>
    injection h with h1
    injection h1 with hc hrest
    subst hc
    simp only [List.length_append, List.length_take, List.length_replicate]
    omega

/-- Witness for C10: the frame TEST, length 2, payload [7,8]. -/
theorem C10_payload_length_matches_header_witness :
    (Chunk.mk [84, 69, 83, 84] [7, 8]).data.length =
      u32_from_le_bytes
        ((([84, 69, 83, 84, 2, 0, 0, 0, 7, 8] : List Nat).take 8 ++
          List.replicate
            (8 - ([84, 69, 83, 84, 2, 0, 0, 0, 7, 8] : List Nat).length) 0).drop 4) :=
  C10_payload_length_matches_header [84, 69, 83, 84, 2, 0, 0, 0, 7, 8]
    ⟨[84, 69, 83, 84], [7, 8]⟩ [] (by decide)
